import Mathlib

/-!
Verification of the naivesound/expr expression engine (src/expr.go) against its
natural-language specification.

Shallow embedding conventions:
* `Num` (Go `float64`) is modelled as `Rat`.  All claim-relevant values are
  small exact integers, and no settled claim depends on rounding; the spots
  where the rational idealization diverges from IEEE float64 (rounding of
  arithmetic, non-finite values) are marked at the definitions below.
* Go's `int64` truncations and bitwise/shift operations are modelled exactly
  (two's-complement wraparound on 64 bits) via `toBits`/`fromBits`.
* The mutable variable cells (`varExpr`) shared through the caller's
  `map[string]Var` are modelled by keying cells by name: an evaluation store
  maps a variable name to its current numeric value, and evaluation threads
  the store explicitly in Go's side-effect order.
* Fallible operations return `Except Err` (parsing) or `Option` (evaluation;
  `none` models a Go panic, which can only arise from the `*varExpr` type
  assertion in the assign branch on hand-built trees).
-/

namespace exprgo

/-- Error taxonomy of src/expr.go lines 13-20. -/
inductive Err
  | badCall          -- ErrBadCall: "function call expected"
  | badAssignment    -- ErrBadAssignment: "variable expected in assignment"
  | badOp            -- ErrBadOp: "unknown operator or function"
  | operandMissing   -- ErrOperandMissing: "missing operand"
  | operatorMissing  -- ErrOperatorMissing: "missing operator" (declared, see C8)
  | paren            -- ErrParen: "parenthesis mismatch"
deriving DecidableEq

/-- Supported arithmetic operations (src/expr.go lines 22-56). -/
inductive arithOp
  | unaryMinus | unaryLogicalNot | unaryBitwiseNot | unarySqrt
  | multiply | divide | remainder
  | plus | minus
  | shl | shr
  | lessThan | lessOrEquals | greaterThan | greaterOrEquals | equals | notEquals
  | bitwiseAnd | bitwiseXor | bitwiseOr
  | logicalAnd | logicalOr
  | assign
deriving DecidableEq

/-- Numeric value of each `arithOp` constant (`iota + 1` in the Go source);
the parser compares operators by this value. -/
def rank : arithOp → Nat
  | .unaryMinus => 1
  | .unaryLogicalNot => 2
  | .unaryBitwiseNot => 3
  | .unarySqrt => 4
  | .multiply => 5
  | .divide => 6
  | .remainder => 7
  | .plus => 8
  | .minus => 9
  | .shl => 10
  | .shr => 11
  | .lessThan => 12
  | .lessOrEquals => 13
  | .greaterThan => 14
  | .greaterOrEquals => 15
  | .equals => 16
  | .notEquals => 17
  | .bitwiseAnd => 18
  | .bitwiseXor => 19
  | .bitwiseOr => 20
  | .logicalAnd => 21
  | .logicalOr => 22
  | .assign => 23

/-- The `ops` lexeme table (src/expr.go lines 58-68). -/
def opsLookup : String → Option arithOp
  | "-u" => some .unaryMinus
  | "!" => some .unaryLogicalNot
  | "~" => some .unaryBitwiseNot
  | "√" => some .unarySqrt
  | "*" => some .multiply
  | "/" => some .divide
  | "%" => some .remainder
  | "+" => some .plus
  | "-" => some .minus
  | "<<" => some .shl
  | ">>" => some .shr
  | "<" => some .lessThan
  | "<=" => some .lessOrEquals
  | ">" => some .greaterThan
  | ">=" => some .greaterOrEquals
  | "==" => some .equals
  | "!=" => some .notEquals
  | "&" => some .bitwiseAnd
  | "^" => some .bitwiseXor
  | "|" => some .bitwiseOr
  | "&&" => some .logicalAnd
  | "||" => some .logicalOr
  | "=" => some .assign
  | _ => none

/-- Go `isUnary`: `op >= unaryMinus && op <= unarySqrt`. -/
def isUnary (op : arithOp) : Bool := decide (rank op ≤ 4)

/-- Go `isLeftAssoc`: `!isUnary(op) && op != assign`. -/
def isLeftAssoc (op : arithOp) : Bool := !isUnary op && decide (op ≠ arithOp.assign)

/-- Go `Num` is `float64`; modelled as the rationals (see file header). -/
abbrev Num := Rat

/-- Go `boolNum` (src/expr.go lines 76-82). -/
def boolNum (b : Bool) : Num := if b then 1 else 0

/-- Truncation toward zero: the Go conversion `int64(x)` for in-range finite
`x` (out-of-range behavior is implementation-defined in Go and modelled by
the 64-bit wraparound in `toInt64`; no claim exercises it). -/
def truncInt (q : Num) : Int := if q < 0 then -((-q).floor) else q.floor

/-- Two's-complement bit pattern (64 bits) of an integer. -/
def toBits (i : Int) : Nat := (i % (2 ^ 64)).toNat

/-- Read a 64-bit two's-complement bit pattern back as a signed integer. -/
def fromBits (n : Nat) : Int := if n < 2 ^ 63 then (n : Int) else (n : Int) - 2 ^ 64

/-- Go conversion of a `Num` to `int64`. -/
def toInt64 (q : Num) : Int := fromBits (toBits (truncInt q))

/-- Go shift count `uint(x)` for nonnegative `x`; a negative shift operand is
implementation-defined in Go (float→uint conversion) and modelled as 0. -/
def shiftCount (q : Num) : Nat := (truncInt q).toNat

/-- Go `int64 << uint` with 64-bit wraparound (shift counts ≥ 64 give 0). -/
def int64Shl (a b : Num) : Int :=
  fromBits ((toBits (toInt64 a) * 2 ^ shiftCount b) % 2 ^ 64)

/-- Go `int64 >> uint`: arithmetic right shift, i.e. floor division by a
power of two (shift counts ≥ 64 give 0 or -1 by sign). -/
def int64Shr (a b : Num) : Int := Int.fdiv (toInt64 a) (2 ^ shiftCount b)

/-- Go `int64 & int64`. -/
def int64And (a b : Num) : Int := fromBits (Nat.land (toBits (toInt64 a)) (toBits (toInt64 b)))

/-- Go `int64 ^ int64` (bitwise xor). -/
def int64Xor (a b : Num) : Int := fromBits (Nat.xor (toBits (toInt64 a)) (toBits (toInt64 b)))

/-- Go `int64 | int64`. -/
def int64Or (a b : Num) : Int := fromBits (Nat.lor (toBits (toInt64 a)) (toBits (toInt64 b)))

/-- Go `^int64(x)` (bitwise complement). -/
def int64Not (a : Num) : Int := fromBits (2 ^ 64 - 1 - toBits (toInt64 a))

/-- Rounding to the nearest integer, ties to even (IEEE round-to-nearest used
by Go's `math.Remainder`). -/
def roundEven (q : Rat) : Int :=
  let f := q.floor
  let r := q - (f : Rat)
  if r < 1/2 then f
  else if 1/2 < r then f + 1
  else if f % 2 = 0 then f else f + 1

/-- Go `math.Remainder(x, y)` for finite nonzero `y`:
`x - y * roundToNearestEven(x / y)`. -/
def ieeeRem (a b : Num) : Num := a - b * ((roundEven (a / b) : Int) : Rat)

/-- Square root; Go `math.Sqrt` returns the float64 nearest the real root,
modelled by Mathlib's monotone rational approximation.  No claim depends on
its value. -/
def sqrtNum (q : Num) : Num := Rat.sqrt q

/-- Expression-tree nodes of src/expr.go.  `const`/`variable`/`extVar` are
leaves; `variable` is the library's own `*varExpr` cell (keyed by its name in
the caller's map), while `extVar` is a caller-supplied implementation of the
`Var` interface that is not a `*varExpr` (relevant to the `assign` type
assertion).  `group` is `lastArgFunc.Bind(args)` (bare parenthesized groups)
and `call` is a caller-supplied `Func` bound to its arguments; the per-call
`FuncEnv` is omitted because no claim observes it. -/
inductive Expr
  | const (value : Num)
  | var (name : String)
  | extVar (name : String)
  | unary (op : arithOp) (arg : Expr)
  | binary (op : arithOp) (a : Expr) (b : Expr)
  | group (args : List Expr)
  | call (fn : String) (args : List Expr)

/-- Evaluation store: current value of every named variable cell.  A cell
missing from the store holds 0, the initial value of a `varExpr` created by
`Parse` (callers that pre-create cells with `NewVarExpr(v)` are modelled by
an initial store entry). -/
abbrev Store := List (String × Num)

/-- Current value of the cell named `n` (0 if never written). -/
def Store.get (s : Store) (n : String) : Num :=
  match s with
  | [] => 0
  | (m, v) :: rest => if m = n then v else Store.get rest n

/-- Write `v` into the cell named `n` (`varExpr.Set`). -/
def Store.set (s : Store) (n : String) (v : Num) : Store :=
  match s with
  | [] => [(n, v)]
  | (m, w) :: rest => if m = n then (n, v) :: rest else (m, w) :: Store.set rest n v

mutual

/-- The evaluator (`Eval` methods of src/expr.go), as a store transformer in
Go's exact side-effect order.  `U` interprets caller-supplied functions
(assumed total, applied to the argument values; the claims never observe a
user call's result).  `none` models the panic of the `*varExpr` type
assertion in the assign branch; every other path is total.

Faithful points worth noting against the source:
* `logicalAnd`/`logicalOr` use Go's native `&&`/`||`, which short-circuit:
  the right operand is not evaluated when the left one decides the result.
* `divide`/`remainder` evaluate the right operand first (`tmp := e.b.Eval()`)
  and do not evaluate the left one at all when `tmp == 0` (result stays 0).
* `assign` evaluates only its right operand, then casts the left child to
  `*varExpr` and writes the value into it.
* a `unary`/`binary` node whose op is not of its arity falls through the Go
  `switch` and returns 0 without evaluating any operand. -/
def eval (U : String → List Num → Num) : Expr → Store → Option (Num × Store)
  | .const v, s => some (v, s)
  | .var n, s => some (Store.get s n, s)
  | .extVar n, s => some (Store.get s n, s)
  | .unary op a, s =>
    match op with
    | .unaryMinus =>
      match eval U a s with
      | none => none
      | some (v, s1) => some (-v, s1)
    | .unaryBitwiseNot =>
      match eval U a s with
      | none => none
      | some (v, s1) => some ((int64Not v : Int), s1)
    | .unaryLogicalNot =>
      match eval U a s with
      | none => none
      | some (v, s1) => some (boolNum (decide (v = 0)), s1)
    | .unarySqrt =>
      match eval U a s with
      | none => none
      | some (v, s1) => some (sqrtNum v, s1)
    | _ => some (0, s)
  | .binary op a b, s =>
    match op with
    | .multiply =>
      match eval U a s with
      | none => none
      | some (va, s1) =>
        match eval U b s1 with
        | none => none
        | some (vb, s2) => some (va * vb, s2)
    | .divide =>
      match eval U b s with
      | none => none
      | some (vb, s1) =>
        if vb = 0 then some (0, s1)
        else
          match eval U a s1 with
          | none => none
          | some (va, s2) => some (va / vb, s2)
    | .remainder =>
      match eval U b s with
      | none => none
      | some (vb, s1) =>
        if vb = 0 then some (0, s1)
        else
          match eval U a s1 with
          | none => none
          | some (va, s2) => some (ieeeRem va vb, s2)
    | .plus =>
      match eval U a s with
      | none => none
      | some (va, s1) =>
        match eval U b s1 with
        | none => none
        | some (vb, s2) => some (va + vb, s2)
    | .minus =>
      match eval U a s with
      | none => none
      | some (va, s1) =>
        match eval U b s1 with
        | none => none
        | some (vb, s2) => some (va - vb, s2)
    | .shl =>
      match eval U a s with
      | none => none
      | some (va, s1) =>
        match eval U b s1 with
        | none => none
        | some (vb, s2) => some ((int64Shl va vb : Int), s2)
    | .shr =>
      match eval U a s with
      | none => none
      | some (va, s1) =>
        match eval U b s1 with
        | none => none
        | some (vb, s2) => some ((int64Shr va vb : Int), s2)
    | .lessThan =>
      match eval U a s with
      | none => none
      | some (va, s1) =>
        match eval U b s1 with
        | none => none
        | some (vb, s2) => some (boolNum (decide (va < vb)), s2)
    | .lessOrEquals =>
      match eval U a s with
      | none => none
      | some (va, s1) =>
        match eval U b s1 with
        | none => none
        | some (vb, s2) => some (boolNum (decide (va ≤ vb)), s2)
    | .greaterThan =>
      match eval U a s with
      | none => none
      | some (va, s1) =>
        match eval U b s1 with
        | none => none
        | some (vb, s2) => some (boolNum (decide (vb < va)), s2)
    | .greaterOrEquals =>
      match eval U a s with
      | none => none
      | some (va, s1) =>
        match eval U b s1 with
        | none => none
        | some (vb, s2) => some (boolNum (decide (vb ≤ va)), s2)
    | .equals =>
      match eval U a s with
      | none => none
      | some (va, s1) =>
        match eval U b s1 with
        | none => none
        | some (vb, s2) => some (boolNum (decide (va = vb)), s2)
    | .notEquals =>
      match eval U a s with
      | none => none
      | some (va, s1) =>
        match eval U b s1 with
        | none => none
        | some (vb, s2) => some (boolNum (decide (va ≠ vb)), s2)
    | .bitwiseAnd =>
      match eval U a s with
      | none => none
      | some (va, s1) =>
        match eval U b s1 with
        | none => none
        | some (vb, s2) => some ((int64And va vb : Int), s2)
    | .bitwiseXor =>
      match eval U a s with
      | none => none
      | some (va, s1) =>
        match eval U b s1 with
        | none => none
        | some (vb, s2) => some ((int64Xor va vb : Int), s2)
    | .bitwiseOr =>
      match eval U a s with
      | none => none
      | some (va, s1) =>
        match eval U b s1 with
        | none => none
        | some (vb, s2) => some ((int64Or va vb : Int), s2)
    | .logicalAnd =>
      match eval U a s with
      | none => none
      | some (va, s1) =>
        if va = 0 then some (boolNum false, s1)
        else
          match eval U b s1 with
          | none => none
          | some (vb, s2) => some (boolNum (decide (vb ≠ 0)), s2)
    | .logicalOr =>
      match eval U a s with
      | none => none
      | some (va, s1) =>
        if va = 0 then
          match eval U b s1 with
          | none => none
          | some (vb, s2) => some (boolNum (decide (vb ≠ 0)), s2)
        else some (boolNum true, s1)
    | .assign =>
      match eval U b s with
      | none => none
      | some (vb, s1) =>
        match a with
        | .var n => some (vb, Store.set s1 n vb)
        | _ => none
    | _ => some (0, s)
  | .group args, s => evalGroup U args 0 s
  | .call f args, s =>
    match evalArgs U args s with
    | none => none
    | some (vs, s1) => some (U f vs, s1)

/-- The internal `lastArgFunc`: evaluate every argument in order, keep the
last value (`var result Num` starts at 0). -/
def evalGroup (U : String → List Num → Num) : List Expr → Num → Store → Option (Num × Store)
  | [], acc, s => some (acc, s)
  | a :: rest, _, s =>
    match eval U a s with
    | none => none
    | some (v, s1) => evalGroup U rest v s1

/-- Evaluate a call's arguments left-to-right, collecting their values. -/
def evalArgs (U : String → List Num → Num) : List Expr → Store → Option (List Num × Store)
  | [], s => some ([], s)
  | a :: rest, s =>
    match eval U a s with
    | none => none
    | some (v, s1) =>
      match evalArgs U rest s1 with
      | none => none
      | some (vs, s2) => some (v :: vs, s2)

end

/-! ### Tokenizer -/

/-- ASCII restriction of `unicode.IsNumber` (all claim inputs are ASCII;
non-ASCII digits would only widen the number branch). -/
def isDigitCh (c : Char) : Bool := decide ('0' ≤ c) && decide (c ≤ '9')

/-- ASCII restriction of `unicode.IsLetter`.  Note `'√'` is a math symbol,
not a letter, in Unicode as well, so the `"√"` operator still reaches the
operator branch. -/
def isLetterCh (c : Char) : Bool :=
  (decide ('a' ≤ c) && decide (c ≤ 'z')) || (decide ('A' ≤ c) && decide (c ≤ 'Z'))

/-- ASCII restriction of `unicode.IsSpace`. -/
def isSpaceCh (c : Char) : Bool :=
  c == ' ' || c == '\t' || c == '\n' || c == '\x0b' || c == '\x0c' || c == '\r'

/-- Characters that terminate the operator maximal-munch loop
(src/expr.go lines 319-320). -/
def isOpStop (c : Char) : Bool :=
  isLetterCh c || isDigitCh c || isSpaceCh c ||
    c == '_' || c == '(' || c == ')' || c == ',' || c == '-'

/-- The operator maximal-munch loop (src/expr.go lines 318-335): grow `tok`
while the extension is a known lexeme (recording it in `lastOp`), or blindly
while nothing has matched yet; stop at a stopper character or after a failed
extension once something matched.  Returns the final `tok`, `lastOp`, and
the unconsumed input. -/
def munchOp (tok lastOp : String) : List Char → String × String × List Char
  | [] => (tok, lastOp, [])
  | c :: rest =>
    if isOpStop c then (tok, lastOp, c :: rest)
    else if (opsLookup (tok.push c)).isSome then munchOp (tok.push c) (tok.push c) rest
    else if lastOp = "" then munchOp (tok.push c) lastOp rest
    else (tok, lastOp, c :: rest)

/-- The Go scanning loops for numbers and identifiers: consume the maximal
run satisfying `p`, return it together with the unconsumed input. -/
def scanTok (p : Char → Bool) : List Char → List Char × List Char
  | [] => ([], [])
  | c :: rest =>
    if p c then
      let q := scanTok p rest
      (c :: q.1, q.2)
    else ([], c :: rest)

/-- One pass of the tokenizer state machine (src/expr.go lines 264-343): a
single "value expected" boolean `ev` drives the disambiguation of `-` and
the adjacency checks; each step consumes one maximal token.

The `fuel` argument only bounds the number of loop iterations so that the
recursion is structural: every iteration consumes at least one character,
so with `fuel = cs.length` the zero-fuel case is reached only on exhausted
input (`tokenizeAux_fuel` below proves the result is fuel-independent for
any sufficient fuel). -/
def tokenizeAux : Nat → Bool → List Char → Except Err (List String)
  | _, _, [] => .ok []
  | 0, _, _ :: _ => .ok []
  | fuel + 1, ev, c :: rest =>
    if isSpaceCh c then tokenizeAux fuel ev rest
    else if isDigitCh c then
      if !ev then .error .operandMissing
      else
        let p := scanTok (fun ch => ch == '.' || isDigitCh ch) rest
        match tokenizeAux fuel false p.2 with
        | .error e => .error e
        | .ok ts => .ok (String.mk (c :: p.1) :: ts)
    else if c == '-' then
      match tokenizeAux fuel true rest with
      | .error e => .error e
      | .ok ts => .ok ((if ev then "-u" else "-") :: ts)
    else if isLetterCh c then
      if !ev then .error .operandMissing
      else
        let p := scanTok (fun ch => isLetterCh ch || isDigitCh ch || ch == '_') rest
        match tokenizeAux fuel false p.2 with
        | .error e => .error e
        | .ok ts => .ok (String.mk (c :: p.1) :: ts)
    else if c == '(' || c == ')' || c == ',' then
      match tokenizeAux fuel (c == '(' || c == ',') rest with
      | .error e => .error e
      | .ok ts => .ok (String.mk [c] :: ts)
    else
      let m := munchOp "" "" (c :: rest)
      if m.2.1 = "" then .error .badOp
      else
        match tokenizeAux fuel true m.2.2 with
        | .error e => .error e
        | .ok ts => .ok (m.1 :: ts)

/-- Go `tokenize` (src/expr.go line 264): the state machine starts expecting
a value; `cs.length` iterations always suffice. -/
def tokenize (cs : List Char) : Except Err (List String) := tokenizeAux cs.length true cs

/-! ### Parser -/

/-- Numeric value of a digit run (most-significant first). -/
def digitsToNat : List Char → Nat → Nat
  | [], acc => acc
  | c :: rest, acc => digitsToNat rest (acc * 10 + (c.toNat - '0'.toNat))

/-- Decimal forms accepted by `strconv.ParseFloat`: an optional integer part
and an optional fractional part around at most one dot, with at least one
digit overall (`"1"`, `"1.5"`, `"1."`, `".5"`; not `"."` or `"1.2.3"`).
Signs, exponents and hex forms cannot occur in the token shapes the
tokenizer produces.  The exact value is the rational one; Go rounds it to
the nearest float64 (no claim depends on the rounding). -/
def parseFloatDec (cs : List Char) : Option Num :=
  let ip := cs.takeWhile isDigitCh
  let rest := cs.dropWhile isDigitCh
  match rest with
  | [] => if ip.isEmpty then none else some ((digitsToNat ip 0 : Nat) : Num)
  | '.' :: fp =>
    if fp.all isDigitCh && !(ip.isEmpty && fp.isEmpty) then
      some (((digitsToNat ip 0 : Nat) : Num) +
        ((digitsToNat fp 0 : Nat) : Num) / ((10 : Num) ^ fp.length))
    else none
  | _ => none

/-- ASCII lower-casing of one character. -/
def lowerCh (c : Char) : Char :=
  if 'A' ≤ c ∧ c ≤ 'Z' then Char.ofNat (c.toNat + 32) else c

/-- ASCII lower-casing of a string (`strings.ToLower` over the spellings
below, which are all ASCII). -/
def lowerStr (s : String) : String := String.mk (s.data.map lowerCh)

/-- Go `strconv.ParseFloat(token, 64)` as used by `Parse`: decimal forms,
plus the special spellings `inf`/`infinity`/`nan` (case-insensitive), which
Go maps to ±Inf/NaN.  The model collapses those non-finite values to 0: no
claim inspects the value, only the fact that such an identifier parses as a
number instead of becoming a variable. -/
def parseFloat (s : String) : Option Num :=
  match parseFloatDec s.data with
  | some v => some v
  | none =>
    if lowerStr s = "inf" || lowerStr s = "infinity" || lowerStr s = "nan" then some 0
    else none

/-- A cell in the caller's `map[string]Var`: either the library's own
`*varExpr` (created by `NewVarExpr` or by `Parse` itself) or some other
caller-supplied implementation of the `Var` interface. -/
inductive VarCell
  | internal
  | external
deriving DecidableEq

/-- The caller's variable map (name → cell).  Go map iteration order is
never used by `Parse`, so an association list is a faithful model. -/
abbrev VarMap := List (String × VarCell)

/-- The caller's function map, modelled by the set of names bound to a
non-nil `Func` (`Parse` only ever tests membership and calls `Bind`, whose
behavior is captured by the `call` node). -/
abbrev FuncMap := List String

def lookupVar : VarMap → String → Option VarCell
  | [], _ => none
  | (m, c) :: rest, n => if m = n then some c else lookupVar rest n

def insertVar : VarMap → String → VarCell → VarMap
  | [], n, c => [(n, c)]
  | (m, d) :: rest, n, c => if m = n then (n, c) :: rest else (m, d) :: insertVar rest n c

def isFunc (funcs : FuncMap) (n : String) : Bool := funcs.contains n

/-- Go `newBinaryExpr` (src/expr.go lines 200-207): an assign node requires
its left child to be a `*varExpr` — the concrete internal type, so a
caller-supplied `Var` implementation (`extVar`) fails the type assertion
too. -/
def newBinaryExpr (op : arithOp) (a b : Expr) : Except Err Expr :=
  if op = .assign then
    match a with
    | .var _ => .ok (.binary op a b)
    | _ => .error .badAssignment
  else .ok (.binary op a b)

/-- Go value-stack `Pop`: popping an empty stack yields the nil expression,
indistinguishable from the nil boundary marker (both are `none`). -/
def popE : List (Option Expr) → Option Expr × List (Option Expr)
  | [] => (none, [])
  | e :: rest => (e, rest)

/-- Go `parseArgs` (src/expr.go lines 517-526): pop values down to the
boundary marker into left-to-right order, then pop the marker itself if the
stack is not yet empty. -/
def parseArgs : List (Option Expr) → List Expr × List (Option Expr)
  | [] => ([], [])
  | none :: rest => ([], rest)
  | some e :: rest =>
    let p := parseArgs rest
    (p.1 ++ [e], p.2)

/-- Go `bind` (src/expr.go lines 493-515): fold a pending marker into a tree
node, consuming its operands from the value stack. -/
def bind (name : String) (funcs : FuncMap) (es : List (Option Expr)) :
    Except Err (Expr × List (Option Expr)) :=
  if isFunc funcs name then
    let p := parseArgs es
    .ok (.call name p.1, p.2)
  else
    match opsLookup name with
    | some op =>
      if isUnary op then
        match es with
        | some a :: rest => .ok (.unary op a, rest)
        | _ => .error .operandMissing
      else
        let pb := popE es
        let pa := popE pb.2
        match pa.1, pb.1 with
        | some a, some b =>
          match newBinaryExpr op a b with
          | .error e => .error e
          | .ok ex => .ok (ex, pa.2)
        | _, _ => .error .operandMissing
    | none => .error .badOp

/-- The marker-stack fold shared by the `")"` and `","` token handlers: bind
operators until the nearest `"("` (kept on the stack), failing with the
parenthesis-mismatch error if the stack empties. -/
def foldUntilParen (funcs : FuncMap) : List String → List (Option Expr) →
    Except Err (List String × List (Option Expr))
  | [], _ => .error .paren
  | o :: rest, es =>
    if o = "(" then .ok (o :: rest, es)
    else
      match bind o funcs es with
      | .error e => .error e
      | .ok (ex, es') => foldUntilParen funcs rest (some ex :: es')

/-- The precedence fold of the operator-token handler (src/expr.go lines
450-459): while the stack top is an operator whose numeric rank triggers
reduction, bind it.  Go compares the `arithOp` enum values directly
(`op >= ops[o2]`, `op > ops[o2]`), lower value = binds tighter. -/
def shuntFold (op : arithOp) (funcs : FuncMap) : List String → List (Option Expr) →
    Except Err (List String × List (Option Expr))
  | [], es => .ok ([], es)
  | o2 :: rest, es =>
    match opsLookup o2 with
    | none => .ok (o2 :: rest, es)
    | some p2 =>
      if (isLeftAssoc op && decide (rank p2 ≤ rank op)) || decide (rank p2 < rank op) then
        match bind o2 funcs es with
        | .error e => .error e
        | .ok (ex, es') => shuntFold op funcs rest (some ex :: es')
      else .ok (o2 :: rest, es)

/-- The parser state threaded through the token loop of `Parse`: the
operator/marker stack, the value stack (`none` = nil boundary marker), the
"a function name was just pushed" flag, and the caller's variable map
(which `Parse` mutates). -/
structure PState where
  os : List String
  es : List (Option Expr)
  expectArgs : Bool
  vars : VarMap

/-- One iteration of the token loop of Go `Parse` (src/expr.go lines
401-471), matching the source's branch order: `"("`, the `expectArgs`
check, `")"`, number (`strconv.ParseFloat`), known function, `","`,
operator, variable. -/
def parseTok (funcs : FuncMap) (st : PState) (token : String) : Except Err PState :=
  if token = "(" then
    .ok { os := "(" :: st.os, es := none :: st.es, expectArgs := false, vars := st.vars }
  else if st.expectArgs then .error .badCall
  else if token = ")" then
    match foldUntilParen funcs st.os st.es with
    | .error e => .error e
    | .ok (os1, es1) =>
      let os2 := os1.tail
      if !os2.isEmpty && isFunc funcs (os2.headD "") then
        match bind (os2.headD "") funcs es1 with
        | .error e => .error e
        | .ok (ex, es2) => .ok { st with os := os2.tail, es := some ex :: es2 }
      else
        let p := parseArgs es1
        .ok { st with os := os2, es := some (.group p.1) :: p.2 }
  else
    match parseFloat token with
    | some n => .ok { st with es := some (.const n) :: st.es }
    | none =>
      if isFunc funcs token then
        .ok { st with os := token :: st.os, expectArgs := true }
      else if token = "," then
        match foldUntilParen funcs st.os st.es with
        | .error e => .error e
        | .ok (os1, es1) => .ok { st with os := os1, es := es1 }
      else
        match opsLookup token with
        | some op =>
          match shuntFold op funcs st.os st.es with
          | .error e => .error e
          | .ok (os1, es1) => .ok { st with os := token :: os1, es := es1 }
        | none =>
          match lookupVar st.vars token with
          | some .internal => .ok { st with es := some (.var token) :: st.es }
          | some .external => .ok { st with es := some (.extVar token) :: st.es }
          | none =>
            .ok { st with
                  es := some (.var token) :: st.es,
                  vars := insertVar st.vars token .internal }

/-- The token loop of Go `Parse`, aborting on the first error. -/
def parseToks (funcs : FuncMap) : List String → PState → Except Err PState
  | [], st => .ok st
  | t :: ts, st =>
    match parseTok funcs st t with
    | .error e => .error e
    | .ok st' => parseToks funcs ts st'

/-- The end-of-input fold of Go `Parse` (src/expr.go lines 472-482): bind
every remaining marker; a leftover paren is a mismatch. -/
def drain (funcs : FuncMap) : List String → List (Option Expr) →
    Except Err (List (Option Expr))
  | [], es => .ok es
  | o :: rest, es =>
    if o = "(" || o = ")" then .error .paren
    else
      match bind o funcs es with
      | .error e => .error e
      | .ok (ex, es') => drain funcs rest (some ex :: es')

/-- Go `Parse` (src/expr.go lines 391-491): wrap the input in one extra
parenthesis pair, tokenize, run the token loop, fold the leftovers, and
return the top of the value stack (the `Option` is Go's possibly-nil
`Expr` interface value; an empty stack yields `Constant(0)`).  The updated
variable map is returned explicitly (Go mutates it in place). -/
def Parse (input : String) (vars : VarMap) (funcs : FuncMap) :
    Except Err (Option Expr × VarMap) :=
  match tokenize ("(" ++ input ++ ")").data with
  | .error e => .error e
  | .ok toks =>
    match parseToks funcs toks { os := [], es := [], expectArgs := false, vars := vars } with
    | .error e => .error e
    | .ok st =>
      match drain funcs st.os st.es with
      | .error e => .error e
      | .ok es =>
        match es with
        | [] => .ok (some (.const 0), st.vars)
        | e :: _ => .ok (e, st.vars)

/-- Trivial interpretation of caller-supplied functions, used to instantiate
concrete claim instances (no settled claim observes a user call's value). -/
def U0 : String → List Num → Num := fun _ _ => 0

/-- Left child of an assign node must be the library's own variable node
(`*varExpr`); this predicate is the model of that type assertion
succeeding. -/
def isVarNode : Expr → Bool
  | .var _ => true
  | _ => false

mutual

/-- Well-formed trees: every assign node's left child is a plain variable
node.  `Parse` only ever constructs such trees (the invariant the
construction-time check of `newBinaryExpr` enforces). -/
def wf : Expr → Bool
  | .const _ => true
  | .var _ => true
  | .extVar _ => true
  | .unary _ a => wf a
  | .binary op a b => (if op = .assign then isVarNode a else true) && wf a && wf b
  | .group args => wfList args
  | .call _ args => wfList args

def wfList : List Expr → Bool
  | [] => true
  | a :: rest => wf a && wfList rest

end

/-- Value stacks all of whose non-boundary entries are well-formed trees;
the invariant `Parse` maintains on its value stack. -/
def esWF : List (Option Expr) → Bool
  | [] => true
  | none :: rest => esWF rest
  | some e :: rest => wf e && esWF rest

mutual

/-- Specification model of the ordering sentence of spec §5: every operator
evaluates its operands strictly left-to-right and elides none of them, with
the only special case that a divide/remainder whose right operand came out 0
substitutes the defined fallback result 0.  Identical to `eval` except in
the binary cases named in claim C2's amendment. -/
def evalLTR (U : String → List Num → Num) : Expr → Store → Option (Num × Store)
  | .const v, s => some (v, s)
  | .var n, s => some (Store.get s n, s)
  | .extVar n, s => some (Store.get s n, s)
  | .unary op a, s =>
    match op with
    | .unaryMinus =>
      match evalLTR U a s with
      | none => none
      | some (v, s1) => some (-v, s1)
    | .unaryBitwiseNot =>
      match evalLTR U a s with
      | none => none
      | some (v, s1) => some ((int64Not v : Int), s1)
    | .unaryLogicalNot =>
      match evalLTR U a s with
      | none => none
      | some (v, s1) => some (boolNum (decide (v = 0)), s1)
    | .unarySqrt =>
      match evalLTR U a s with
      | none => none
      | some (v, s1) => some (sqrtNum v, s1)
    | _ => some (0, s)
  | .binary op a b, s =>
    match op with
    | .divide =>
      match evalLTR U a s with
      | none => none
      | some (va, s1) =>
        match evalLTR U b s1 with
        | none => none
        | some (vb, s2) => if vb = 0 then some (0, s2) else some (va / vb, s2)
    | .remainder =>
      match evalLTR U a s with
      | none => none
      | some (va, s1) =>
        match evalLTR U b s1 with
        | none => none
        | some (vb, s2) => if vb = 0 then some (0, s2) else some (ieeeRem va vb, s2)
    | .logicalAnd =>
      match evalLTR U a s with
      | none => none
      | some (va, s1) =>
        match evalLTR U b s1 with
        | none => none
        | some (vb, s2) => some (boolNum (decide (va ≠ 0) && decide (vb ≠ 0)), s2)
    | .logicalOr =>
      match evalLTR U a s with
      | none => none
      | some (va, s1) =>
        match evalLTR U b s1 with
        | none => none
        | some (vb, s2) => some (boolNum (decide (va ≠ 0) || decide (vb ≠ 0)), s2)
    | .assign =>
      match evalLTR U b s with
      | none => none
      | some (vb, s1) =>
        match a with
        | .var n => some (vb, Store.set s1 n vb)
        | _ => none
    | .multiply =>
      match evalLTR U a s with
      | none => none
      | some (va, s1) =>
        match evalLTR U b s1 with
        | none => none
        | some (vb, s2) => some (va * vb, s2)
    | .plus =>
      match evalLTR U a s with
      | none => none
      | some (va, s1) =>
        match evalLTR U b s1 with
        | none => none
        | some (vb, s2) => some (va + vb, s2)
    | .minus =>
      match evalLTR U a s with
      | none => none
      | some (va, s1) =>
        match evalLTR U b s1 with
        | none => none
        | some (vb, s2) => some (va - vb, s2)
    | .shl =>
      match evalLTR U a s with
      | none => none
      | some (va, s1) =>
        match evalLTR U b s1 with
        | none => none
        | some (vb, s2) => some ((int64Shl va vb : Int), s2)
    | .shr =>
      match evalLTR U a s with
      | none => none
      | some (va, s1) =>
        match evalLTR U b s1 with
        | none => none
        | some (vb, s2) => some ((int64Shr va vb : Int), s2)
    | .lessThan =>
      match evalLTR U a s with
      | none => none
      | some (va, s1) =>
        match evalLTR U b s1 with
        | none => none
        | some (vb, s2) => some (boolNum (decide (va < vb)), s2)
    | .lessOrEquals =>
      match evalLTR U a s with
      | none => none
      | some (va, s1) =>
        match evalLTR U b s1 with
        | none => none
        | some (vb, s2) => some (boolNum (decide (va ≤ vb)), s2)
    | .greaterThan =>
      match evalLTR U a s with
      | none => none
      | some (va, s1) =>
        match evalLTR U b s1 with
        | none => none
        | some (vb, s2) => some (boolNum (decide (vb < va)), s2)
    | .greaterOrEquals =>
      match evalLTR U a s with
      | none => none
      | some (va, s1) =>
        match evalLTR U b s1 with
        | none => none
        | some (vb, s2) => some (boolNum (decide (vb ≤ va)), s2)
    | .equals =>
      match evalLTR U a s with
      | none => none
      | some (va, s1) =>
        match evalLTR U b s1 with
        | none => none
        | some (vb, s2) => some (boolNum (decide (va = vb)), s2)
    | .notEquals =>
      match evalLTR U a s with
      | none => none
      | some (va, s1) =>
        match evalLTR U b s1 with
        | none => none
        | some (vb, s2) => some (boolNum (decide (va ≠ vb)), s2)
    | .bitwiseAnd =>
      match evalLTR U a s with
      | none => none
      | some (va, s1) =>
        match evalLTR U b s1 with
        | none => none
        | some (vb, s2) => some ((int64And va vb : Int), s2)
    | .bitwiseXor =>
      match evalLTR U a s with
      | none => none
      | some (va, s1) =>
        match evalLTR U b s1 with
        | none => none
        | some (vb, s2) => some ((int64Xor va vb : Int), s2)
    | .bitwiseOr =>
      match evalLTR U a s with
      | none => none
      | some (va, s1) =>
        match evalLTR U b s1 with
        | none => none
        | some (vb, s2) => some ((int64Or va vb : Int), s2)
    | _ => some (0, s)
  | .group args, s => evalLTRGroup U args 0 s
  | .call f args, s =>
    match evalLTRArgs U args s with
    | none => none
    | some (vs, s1) => some (U f vs, s1)

def evalLTRGroup (U : String → List Num → Num) : List Expr → Num → Store → Option (Num × Store)
  | [], acc, s => some (acc, s)
  | a :: rest, _, s =>
    match evalLTR U a s with
    | none => none
    | some (v, s1) => evalLTRGroup U rest v s1

def evalLTRArgs (U : String → List Num → Num) : List Expr → Store → Option (List Num × Store)
  | [], s => some ([], s)
  | a :: rest, s =>
    match evalLTR U a s with
    | none => none
    | some (v, s1) =>
      match evalLTRArgs U rest s1 with
      | none => none
      | some (vs, s2) => some (v :: vs, s2)

end

mutual

/-- Trees containing none of the operators on which `eval` deviates from the
strict left-to-right order (divide, remainder, logical and/or, assign). -/
def ltrOnly : Expr → Bool
  | .const _ => true
  | .var _ => true
  | .extVar _ => true
  | .unary _ a => ltrOnly a
  | .binary op a b =>
    (match op with
     | .divide | .remainder | .logicalAnd | .logicalOr | .assign => false
     | _ => true) && ltrOnly a && ltrOnly b
  | .group args => ltrOnlyList args
  | .call _ args => ltrOnlyList args

def ltrOnlyList : List Expr → Bool
  | [] => true
  | a :: rest => ltrOnly a && ltrOnlyList rest

end

/-! ### Auxiliary lemmas about the tokenizer scanners -/

theorem munchOp_length (cs : List Char) :
    ∀ tok lastOp, ((munchOp tok lastOp cs).2.2).length ≤ cs.length := by
  induction cs with
  | nil => intro tok lastOp; simp [munchOp]
  | cons c rest ih =>
    intro tok lastOp
    simp only [munchOp]
    split
    · simp
    · split
      · exact le_trans (ih _ _) (Nat.le_succ _)
      · split
        · exact le_trans (ih _ _) (Nat.le_succ _)
        · simp

theorem munchOp_progress : ∀ (cs : List Char) (tok : String) (res : String × String × List Char),
    munchOp tok "" cs = res → res.2.1 ≠ "" → res.2.2.length < cs.length := by
  intro cs
  induction cs with
  | nil =>
    intro tok res he h
    simp only [munchOp] at he
    rw [← he] at h
    simp at h
  | cons c rest ih =>
    intro tok res he h
    simp only [munchOp] at he
    split at he
    · rw [← he] at h; simp at h
    · split at he
      · have hl := munchOp_length rest (tok.push c) (tok.push c)
        rw [he] at hl
        exact Nat.lt_succ_of_le hl
      · split at he
        · exact Nat.lt_succ_of_lt (ih _ _ he h)
        · rw [← he] at h; simp at h


theorem scanTok_length_le (p : Char → Bool) (l : List Char) :
    (scanTok p l).2.length ≤ l.length := by
  induction l with
  | nil => simp [scanTok]
  | cons c rest ih =>
    simp only [scanTok]
    split
    · exact le_trans ih (Nat.le_succ _)
    · simp


/-- The tokenizer's result does not depend on the fuel as long as it is at
least the number of characters: each loop iteration consumes at least one
character. -/
theorem tokenizeAux_fuel : ∀ (f g : Nat) (ev : Bool) (cs : List Char),
    cs.length ≤ f → cs.length ≤ g → tokenizeAux f ev cs = tokenizeAux g ev cs := by
  intro f
  induction f with
  | zero =>
    intro g ev cs hf _
    match cs with
    | [] => cases g <;> rfl
    | c :: rest => simp at hf
  | succ f ih =>
    intro g ev cs hf hg
    match cs with
    | [] => cases g <;> rfl
    | c :: rest =>
      match g, hg with
      | g + 1, hg =>
        simp only [List.length_cons] at hf hg
        simp only [tokenizeAux]
        have hrest : rest.length ≤ f := by omega
        have hrest' : rest.length ≤ g := by omega
        have hscan1 : ∀ p : Char → Bool, (scanTok p rest).2.length ≤ f :=
          fun p => le_trans (scanTok_length_le p rest) hrest
        have hscan2 : ∀ p : Char → Bool, (scanTok p rest).2.length ≤ g :=
          fun p => le_trans (scanTok_length_le p rest) hrest'
        rw [ih g ev rest hrest hrest']
        rw [ih g false (scanTok (fun ch => ch == '.' || isDigitCh ch) rest).2 (hscan1 _) (hscan2 _)]
        rw [ih g true rest hrest hrest']
        rw [ih g false (scanTok (fun ch => isLetterCh ch || isDigitCh ch || ch == '_') rest).2
          (hscan1 _) (hscan2 _)]
        rw [ih g (c == '(' || c == ',') rest hrest hrest']
        by_cases hm : (munchOp "" "" (c :: rest)).2.1 = ""
        · simp [hm]
        · have hl := munchOp_progress (c :: rest) "" _ rfl hm
          simp only [List.length_cons] at hl
          rw [ih g true (munchOp "" "" (c :: rest)).2.2 (by omega) (by omega)]

/-! ### Claims -/

/-- Claim C1, counterexample: the claim says the right operand of `&&` is
evaluated (side effects and all) regardless of the left operand's value, but
Go's native `&&` in `boolNum(e.a.Eval() != 0 && e.b.Eval() != 0)`
short-circuits: evaluating `0 && (x = 1)` returns 0 with the store untouched
(first conjunct), although evaluating the right operand by itself would have
written `x` (second conjunct), producing a different store (third
conjunct). -/
theorem c1_counterexample :
    eval U0 (.binary .logicalAnd (.const 0) (.binary .assign (.var "x") (.const 1))) [] =
      some (0, []) ∧
    eval U0 (.binary .assign (.var "x") (.const 1)) [] = some (1, [("x", 1)]) ∧
    ([] : Store) ≠ [("x", 1)] := by
  refine ⟨?_, ?_, by simp⟩
  · simp [eval, boolNum]
  · simp [eval, Store.set]

/-- Claim C1, amended: for `&&` and `||` nodes, `Eval` always evaluates the
left operand; the right operand is evaluated only when the left one leaves
the result undecided (left ≠ 0 for `&&`, left = 0 for `||`), because the Go
implementation uses the short-circuiting native `&&`/`||`.  The result is
still always 1 if the boolean condition holds and 0 otherwise, and side
effects in the left operand always occur — as in the spec's own example
`(x=1)&&0`, whose left-operand assignment runs even though the result is 0
(third conjunct). -/
theorem c1_amended (U : String → List Num → Num) (a b : Expr) (s : Store) :
    eval U (.binary .logicalAnd a b) s =
      (match eval U a s with
       | none => none
       | some (va, s1) =>
         if va = 0 then some (0, s1)
         else
           match eval U b s1 with
           | none => none
           | some (vb, s2) => some (boolNum (decide (vb ≠ 0)), s2)) ∧
    eval U (.binary .logicalOr a b) s =
      (match eval U a s with
       | none => none
       | some (va, s1) =>
         if va = 0 then
           match eval U b s1 with
           | none => none
           | some (vb, s2) => some (boolNum (decide (vb ≠ 0)), s2)
         else some (1, s1)) ∧
    eval U0 (.binary .logicalAnd (.binary .assign (.var "x") (.const 1)) (.const 0)) [] =
      some (0, [("x", 1)]) := by
  refine ⟨by simp [eval, boolNum], by simp [eval, boolNum], ?_⟩
  norm_num [eval, Store.set, boolNum]

/-- Claim C3, counterexample: the claim says `"2--3"` evaluates to -1, but
the parsed tree is `2 - (-3)`, which evaluates to 5. -/
theorem c3_counterexample :
    Parse "2--3" [] [] =
      .ok (some (.group [.binary .minus (.const 2) (.unary .unaryMinus (.const 3))]), []) ∧
    eval U0 (.group [.binary .minus (.const 2) (.unary .unaryMinus (.const 3))]) [] =
      some (5, []) ∧
    (5 : Num) ≠ -1 := by
  refine ⟨rfl, ?_, by norm_num⟩
  norm_num [eval, evalGroup]

/-- Claim C3, amended: the tokenizer tags a `-` occurring where a value is
expected as the distinct prefix-minus lexeme `"-u"` and as binary `"-"`
otherwise (first conjunct, the `-` branch of the state machine); hence
`"2+-3"` tokenizes to `2 + -u 3` and `"2--3"` to `2 - -u 3`, both parse
successfully, `"2+-3"` evaluates to -1, and `"2--3"` evaluates to
`2 - (-3) = 5` (not -1 as the spec states). -/
theorem c3_amended :
    (∀ (fuel : Nat) (ev : Bool) (rest : List Char),
      tokenizeAux (fuel + 1) ev ('-' :: rest) =
        match tokenizeAux fuel true rest with
        | .error e => .error e
        | .ok ts => .ok ((if ev then "-u" else "-") :: ts)) ∧
    tokenize "2+-3".data = .ok ["2", "+", "-u", "3"] ∧
    tokenize "2--3".data = .ok ["2", "-", "-u", "3"] ∧
    Parse "2+-3" [] [] =
      .ok (some (.group [.binary .plus (.const 2) (.unary .unaryMinus (.const 3))]), []) ∧
    eval U0 (.group [.binary .plus (.const 2) (.unary .unaryMinus (.const 3))]) [] =
      some (-1, []) ∧
    Parse "2--3" [] [] =
      .ok (some (.group [.binary .minus (.const 2) (.unary .unaryMinus (.const 3))]), []) ∧
    eval U0 (.group [.binary .minus (.const 2) (.unary .unaryMinus (.const 3))]) [] =
      some (5, []) := by
  refine ⟨fun fuel ev rest => rfl, rfl, rfl, rfl, ?_, rfl, ?_⟩
  · norm_num [eval, evalGroup]
  · norm_num [eval, evalGroup]

/-- Claim C4: a divide or remainder node whose right operand evaluates to
exactly 0 returns 0 (no error, no infinity, no NaN) without evaluating the
left operand at all — the result is 0 paired with the store exactly as the
right operand's evaluation left it; and `"5/0"` parses successfully and
evaluates to 0. -/
theorem c4_div_rem_zero (U : String → List Num → Num) (a b : Expr) (s svb : Store)
    (h : eval U b s = some (0, svb)) :
    eval U (.binary .divide a b) s = some (0, svb) ∧
    eval U (.binary .remainder a b) s = some (0, svb) ∧
    Parse "5/0" [] [] = .ok (some (.group [.binary .divide (.const 5) (.const 0)]), []) ∧
    eval U0 (.group [.binary .divide (.const 5) (.const 0)]) [] = some (0, []) := by
  refine ⟨?_, ?_, rfl, ?_⟩
  · simp [eval, h]
  · simp [eval, h]
  · simp [eval, evalGroup]

/-- Witness for C4 at `5 / 0` on the empty store. -/
theorem c4_witness :
    eval U0 (.binary .divide (.const 5) (.const 0)) [] = some (0, []) :=
  (c4_div_rem_zero U0 (.const 5) (.const 0) [] [] rfl).1

/-- Claim C6: binary-node construction (`newBinaryExpr`) rejects an assign
whose left operand is not a plain variable node with the bad-assignment
error — the check happens at tree-construction (parse) time — and in
particular `Parse "2=3"` fails with that error and returns no tree. -/
theorem c6_assign_left_var (a b : Expr) (h : isVarNode a = false) :
    newBinaryExpr .assign a b = .error .badAssignment ∧
    Parse "2=3" [] [] = .error .badAssignment := by
  refine ⟨?_, rfl⟩
  unfold newBinaryExpr
  rw [if_pos rfl]
  cases a <;> first
    | rfl
    | simp [isVarNode] at h

/-- Witness for C6 at `2 = 3`. -/
theorem c6_witness :
    newBinaryExpr .assign (.const 2) (.const 3) = .error .badAssignment :=
  (c6_assign_left_var (.const 2) (.const 3) rfl).1

/-- Claim C10: because `Parse` wraps the whole input in one extra
parenthesis pair, the input `")+("` — unbalanced in isolation — parses
without a parenthesis-mismatch error, producing `(empty group) + (empty
group)`, which evaluates to 0. -/
theorem c10_wrapped_parens :
    Parse ")+(" [] [] = .ok (some (.binary .plus (.group []) (.group [])), []) ∧
    eval U0 (.binary .plus (.group []) (.group [])) [] = some (0, []) := by
  refine ⟨rfl, ?_⟩
  norm_num [eval, evalGroup]

/-- Claim C7, counterexample: the identifier token `"inf"` names neither a
function nor an operator, yet `Parse` does not push a variable node for it
and does not insert it into the variable map: `strconv.ParseFloat` accepts
the spelling `"inf"` (as +Inf; the model collapses the non-finite value to
the constant 0, which the claim does not inspect), so the number branch
fires first and pushes a constant, leaving the variable map empty. -/
theorem c7_counterexample :
    Parse "inf" [] [] = .ok (some (.group [.const 0]), []) ∧
    (∀ n : String, Expr.group [.const 0] ≠ .group [.var n]) ∧
    ([] : VarMap) ≠ [("inf", VarCell.internal)] := by
  refine ⟨rfl, ?_, by simp⟩
  intro n
  simp

/-- Claim C7, amended: for every token that reaches the variable branch —
one that is not `"("`/`")"`/`","`, is not accepted by `strconv.ParseFloat`
(which also accepts the identifier spellings `inf`/`infinity`/`nan`), names
no known function and no operator — `Parse` pushes a variable node: the
existing cell if the name is in the caller's map (the caller's non-`varExpr`
implementations included), otherwise a fresh internal cell with value 0
that is also inserted into the map.  Hence variables persist across parses:
`"x=10"` then, with the same map, `"x+1"` evaluates to 11. -/
theorem c7_amended (funcs : FuncMap) (st : PState) (t : String)
    (h1 : st.expectArgs = false) (h2 : t ≠ "(") (h3 : t ≠ ")") (h4 : t ≠ ",")
    (h5 : parseFloat t = none) (h6 : isFunc funcs t = false) (h7 : opsLookup t = none) :
    parseTok funcs st t =
      .ok { st with
            es := some (match lookupVar st.vars t with
                        | some .external => Expr.extVar t
                        | _ => Expr.var t) :: st.es,
            vars := match lookupVar st.vars t with
                    | none => insertVar st.vars t .internal
                    | some _ => st.vars } ∧
    Parse "x=10" [] [] =
      .ok (some (.group [.binary .assign (.var "x") (.const 10)]), [("x", .internal)]) ∧
    eval U0 (.group [.binary .assign (.var "x") (.const 10)]) [] = some (10, [("x", 10)]) ∧
    Parse "x+1" [("x", .internal)] [] =
      .ok (some (.group [.binary .plus (.var "x") (.const 1)]), [("x", .internal)]) ∧
    eval U0 (.group [.binary .plus (.var "x") (.const 1)]) [("x", 10)] =
      some (11, [("x", 10)]) := by
  refine ⟨?_, rfl, ?_, rfl, ?_⟩
  · simp only [parseTok, if_neg h2, h1, Bool.false_eq_true, if_false, if_neg h3, h5, h6,
      if_neg h4, h7]
    cases hv : lookupVar st.vars t with
    | none => simp
    | some c => cases c <;> simp
  · simp [eval, evalGroup, Store.set]
  · norm_num [eval, evalGroup, Store.get]

/-- Witness for C7's amended per-token statement: the fresh identifier `"y"`
is pushed as a new internal variable cell (initial value 0) and inserted
into the empty variable map. -/
theorem c7_witness :
    parseTok [] ⟨[], [], false, []⟩ "y" =
      .ok ⟨[], [some (.var "y")], false, [("y", .internal)]⟩ := by
  have := (c7_amended [] ⟨[], [], false, []⟩ "y" rfl (by decide) (by decide) (by decide)
    rfl rfl rfl).1
  simpa using this

/-- Claim C9: if the caller's variable map binds `"x"` to a `Var`
implementation other than the library's own `*varExpr`, then parsing the
assignment `"x=1"` fails with the bad-assignment error even though the cell
satisfies the public `Var` interface: the construction-time check is a type
assertion on the concrete internal type. -/
theorem c9_external_var_impl (vars : VarMap) (h : lookupVar vars "x" = some .external) :
    Parse "x=1" vars [] = .error .badAssignment := by
  have htok : tokenize ("(" ++ "x=1" ++ ")").data = .ok ["(", "x", "=", "1", ")"] := rfl
  have s1 : parseTok ([] : FuncMap) ⟨[], [], false, vars⟩ "(" =
      .ok ⟨["("], [none], false, vars⟩ := rfl
  have s2 : parseTok ([] : FuncMap) ⟨["("], [none], false, vars⟩ "x" =
      .ok ⟨["("], [some (.extVar "x"), none], false, vars⟩ := by
    have hx : parseFloat "x" = none := rfl
    have hf : isFunc ([] : FuncMap) "x" = false := rfl
    have ho : opsLookup "x" = none := rfl
    simp [parseTok, h, hx, hf, ho]
  have s3 : parseToks ([] : FuncMap) ["=", "1", ")"]
      ⟨["("], [some (.extVar "x"), none], false, vars⟩ = .error .badAssignment := rfl
  have sAll : parseToks ([] : FuncMap) ["(", "x", "=", "1", ")"] ⟨[], [], false, vars⟩ =
      .error .badAssignment := by
    show (match parseTok ([] : FuncMap) ⟨[], [], false, vars⟩ "(" with
          | .error e => (.error e : Except Err PState)
          | .ok st' => parseToks [] ["x", "=", "1", ")"] st') = _
    rw [s1]
    show (match parseTok ([] : FuncMap) ⟨["("], [none], false, vars⟩ "x" with
          | .error e => (.error e : Except Err PState)
          | .ok st' => parseToks [] ["=", "1", ")"] st') = _
    rw [s2]
    exact s3
  simp only [Parse, htok, sAll]

/-- Witness for C9: a variable map binding `"x"` to an external cell. -/
theorem c9_witness :
    Parse "x=1" [("x", VarCell.external)] [] = .error .badAssignment :=
  c9_external_var_impl [("x", VarCell.external)] rfl

mutual

/-- On trees built only from operators outside {divide, remainder,
logical-and, logical-or, assign}, the evaluator agrees everywhere with the
strict left-to-right specification model. -/
theorem eval_eq_evalLTR (U : String → List Num → Num) :
    (e : Expr) → ltrOnly e = true → ∀ s, eval U e s = evalLTR U e s
  | .const _, _ => fun _ => rfl
  | .var _, _ => fun _ => rfl
  | .extVar _, _ => fun _ => rfl
  | .unary op a, h => fun s => by
    have ih := eval_eq_evalLTR U a (by simpa [ltrOnly] using h)
    cases op <;> simp only [eval, evalLTR, ih]
  | .binary op a b, h => fun s => by
    have h' := h
    simp only [ltrOnly, Bool.and_eq_true] at h'
    obtain ⟨⟨hm, hla⟩, hlb⟩ := h'
    have iha := eval_eq_evalLTR U a hla
    have ihb := eval_eq_evalLTR U b hlb
    cases op <;> first
      | exact absurd hm (by decide)
      | simp only [eval, evalLTR, iha, ihb]
  | .group args, h => fun s => by
    have ih := evalGroup_eq_evalLTRGroup U args (by simpa [ltrOnly] using h)
    simp only [eval, evalLTR, ih]
  | .call f args, h => fun s => by
    have ih := evalArgs_eq_evalLTRArgs U args (by simpa [ltrOnly] using h)
    simp only [eval, evalLTR, ih]

theorem evalGroup_eq_evalLTRGroup (U : String → List Num → Num) :
    (l : List Expr) → ltrOnlyList l = true →
      ∀ acc s, evalGroup U l acc s = evalLTRGroup U l acc s
  | [], _ => fun _ _ => rfl
  | a :: rest, h => fun acc s => by
    have h' := h
    simp only [ltrOnlyList, Bool.and_eq_true] at h'
    have ha := eval_eq_evalLTR U a h'.1
    have hr := evalGroup_eq_evalLTRGroup U rest h'.2
    simp only [evalGroup, evalLTRGroup, ha, hr]

theorem evalArgs_eq_evalLTRArgs (U : String → List Num → Num) :
    (l : List Expr) → ltrOnlyList l = true →
      ∀ s, evalArgs U l s = evalLTRArgs U l s
  | [], _ => fun _ => rfl
  | a :: rest, h => fun s => by
    have h' := h
    simp only [ltrOnlyList, Bool.and_eq_true] at h'
    have ha := eval_eq_evalLTR U a h'.1
    have hr := evalArgs_eq_evalLTRArgs U rest h'.2
    simp only [evalArgs, evalLTRArgs, ha, hr]

end

/-- Claim C2, counterexample: evaluation order is not strictly
left-to-right: a divide node evaluates its right operand first
(`tmp := e.b.Eval()`).  Evaluating `(x=2) / (x=3)` on the empty store
leaves `x = 2` (the left assignment ran last), while the strict
left-to-right model of the spec sentence leaves `x = 3`; the two final
stores differ. -/
theorem c2_counterexample :
    eval U0 (.binary .divide (.binary .assign (.var "x") (.const 2))
      (.binary .assign (.var "x") (.const 3))) [] = some (2 / 3, [("x", 2)]) ∧
    evalLTR U0 (.binary .divide (.binary .assign (.var "x") (.const 2))
      (.binary .assign (.var "x") (.const 3))) [] = some (2 / 3, [("x", 3)]) ∧
    ([("x", (2 : Num))] : Store) ≠ [("x", (3 : Num))] := by
  refine ⟨?_, ?_, by norm_num⟩
  · norm_num [eval, Store.set]
  · norm_num [evalLTR, Store.set]

/-- Claim C2, amended: within one evaluation, sub-expression evaluation is
fully deterministic and strictly left-to-right for every operator except
that (a) divide and remainder evaluate the right operand first and skip the
left operand entirely when the right one is 0, (b) logical-and/or skip the
right operand when the left one already decides the result, and (c) assign
evaluates only its right operand (the left variable cell is written, not
read).  Formally: on every tree free of those five operators, `eval`
coincides with the strict left-to-right specification model `evalLTR`. -/
theorem c2_amended (U : String → List Num → Num) (e : Expr) (h : ltrOnly e = true)
    (s : Store) : eval U e s = evalLTR U e s :=
  eval_eq_evalLTR U e h s

/-- Witness for C2's amended statement on the tree of `"1*2+3"`. -/
theorem c2_witness :
    ltrOnly (.binary .plus (.binary .multiply (.const 1) (.const 2)) (.const 3)) = true ∧
    eval U0 (.binary .plus (.binary .multiply (.const 1) (.const 2)) (.const 3)) [] =
      evalLTR U0 (.binary .plus (.binary .multiply (.const 1) (.const 2)) (.const 3)) [] :=
  ⟨rfl, c2_amended U0
    (.binary .plus (.binary .multiply (.const 1) (.const 2)) (.const 3)) rfl []⟩

/-! ### Claim C8: the operator-missing error is unreachable -/

theorem tokenizeAux_ne_opMissing : ∀ (fuel : Nat) (ev : Bool) (cs : List Char),
    tokenizeAux fuel ev cs ≠ .error .operatorMissing := by
  intro fuel
  induction fuel with
  | zero => intro ev cs; cases cs <;> simp [tokenizeAux]
  | succ f ih =>
    intro ev cs
    cases cs with
    | nil => simp [tokenizeAux]
    | cons c rest =>
      simp only [tokenizeAux]
      split
      · exact ih _ _
      · split
        · split
          · simp
          · split
            · rename_i e heq
              intro hc
              injection hc with hc
              rw [hc] at heq
              exact ih _ _ heq
            · simp
        · split
          · split
            · rename_i e heq
              intro hc
              injection hc with hc
              rw [hc] at heq
              exact ih _ _ heq
            · simp
          · split
            · split
              · simp
              · split
                · rename_i e heq
                  intro hc
                  injection hc with hc
                  rw [hc] at heq
                  exact ih _ _ heq
                · simp
            · split
              · split
                · rename_i e heq
                  intro hc
                  injection hc with hc
                  rw [hc] at heq
                  exact ih _ _ heq
                · simp
              · split
                · simp
                · split
                  · rename_i e heq
                    intro hc
                    injection hc with hc
                    rw [hc] at heq
                    exact ih _ _ heq
                  · simp

theorem newBinaryExpr_ne_opMissing (op : arithOp) (a b : Expr) :
    newBinaryExpr op a b ≠ .error .operatorMissing := by
  unfold newBinaryExpr
  split
  · cases a <;> simp
  · simp

theorem bind_ne_opMissing (name : String) (funcs : FuncMap) (es : List (Option Expr)) :
    bind name funcs es ≠ .error .operatorMissing := by
  unfold bind
  dsimp only
  split
  · simp
  · split
    · split
      · split
        · simp
        · simp
      · split
        · split
          · rename_i e heq
            intro hc
            injection hc with hc
            rw [hc] at heq
            exact newBinaryExpr_ne_opMissing _ _ _ heq
          · simp
        · simp
    · simp

theorem foldUntilParen_ne_opMissing (funcs : FuncMap) : ∀ (os : List String)
    (es : List (Option Expr)), foldUntilParen funcs os es ≠ .error .operatorMissing := by
  intro os
  induction os with
  | nil => intro es; simp [foldUntilParen]
  | cons o rest ih =>
    intro es
    simp only [foldUntilParen]
    split
    · simp
    · split
      · rename_i e heq
        intro hc
        injection hc with hc
        rw [hc] at heq
        exact bind_ne_opMissing _ _ _ heq
      · exact ih _

theorem shuntFold_ne_opMissing (op : arithOp) (funcs : FuncMap) : ∀ (os : List String)
    (es : List (Option Expr)), shuntFold op funcs os es ≠ .error .operatorMissing := by
  intro os
  induction os with
  | nil => intro es; simp [shuntFold]
  | cons o rest ih =>
    intro es
    simp only [shuntFold]
    split
    · simp
    · split
      · split
        · rename_i e heq
          intro hc
          injection hc with hc
          rw [hc] at heq
          exact bind_ne_opMissing _ _ _ heq
        · exact ih _
      · simp

theorem parseTok_ne_opMissing (funcs : FuncMap) (st : PState) (t : String) :
    parseTok funcs st t ≠ .error .operatorMissing := by
  unfold parseTok
  dsimp only
  split
  · simp
  · split
    · simp
    · split
      · split
        · rename_i e heq
          intro hc
          injection hc with hc
          rw [hc] at heq
          exact foldUntilParen_ne_opMissing _ _ _ heq
        · split
          · split
            · rename_i e heq
              intro hc
              injection hc with hc
              rw [hc] at heq
              exact bind_ne_opMissing _ _ _ heq
            · simp
          · simp
      · split
        · simp
        · split
          · simp
          · split
            · split
              · rename_i e heq
                intro hc
                injection hc with hc
                rw [hc] at heq
                exact foldUntilParen_ne_opMissing _ _ _ heq
              · simp
            · split
              · split
                · rename_i e heq
                  intro hc
                  injection hc with hc
                  rw [hc] at heq
                  exact shuntFold_ne_opMissing _ _ _ _ heq
                · simp
              · split <;> simp

theorem parseToks_ne_opMissing (funcs : FuncMap) : ∀ (ts : List String) (st : PState),
    parseToks funcs ts st ≠ .error .operatorMissing := by
  intro ts
  induction ts with
  | nil => intro st; simp [parseToks]
  | cons t rest ih =>
    intro st
    simp only [parseToks]
    split
    · rename_i e heq
      intro hc
      injection hc with hc
      rw [hc] at heq
      exact parseTok_ne_opMissing _ _ _ heq
    · exact ih _

theorem drain_ne_opMissing (funcs : FuncMap) : ∀ (os : List String)
    (es : List (Option Expr)), drain funcs os es ≠ .error .operatorMissing := by
  intro os
  induction os with
  | nil => intro es; simp [drain]
  | cons o rest ih =>
    intro es
    simp only [drain]
    split
    · simp
    · split
      · rename_i e heq
        intro hc
        injection hc with hc
        rw [hc] at heq
        exact bind_ne_opMissing _ _ _ heq
      · exact ih _

theorem Parse_ne_opMissing (input : String) (vars : VarMap) (funcs : FuncMap) :
    Parse input vars funcs ≠ .error .operatorMissing := by
  unfold Parse
  split
  · rename_i e heq
    intro hc
    injection hc with hc
    rw [hc] at heq
    exact tokenizeAux_ne_opMissing _ _ _ heq
  · split
    · rename_i e heq
      intro hc
      injection hc with hc
      rw [hc] at heq
      exact parseToks_ne_opMissing _ _ _ heq
    · split
      · rename_i e heq
        intro hc
        injection hc with hc
        rw [hc] at heq
        exact drain_ne_opMissing _ _ _ heq
      · split <;> simp

/-- Claim C8: for every input string and every variable and function map,
`Parse` never returns the operator-missing error kind — `ErrOperatorMissing`
is declared in the error taxonomy but unreachable: the tokenizer's
value-expectation checks raise the operand-missing or bad-operator errors
instead, and the parser raises only bad-call, parenthesis-mismatch,
bad-assignment, bad-operator and operand-missing. -/
theorem c8_operator_missing_unreachable (input : String) (vars : VarMap) (funcs : FuncMap) :
    (match Parse input vars funcs with
     | .error .operatorMissing => true
     | _ => false) = false := by
  have h := Parse_ne_opMissing input vars funcs
  revert h
  cases Parse input vars funcs with
  | error e => cases e <;> simp
  | ok p => simp

/-! ### Claim C5: trees returned by Parse always evaluate -/

theorem wfList_append (l1 l2 : List Expr) : wfList (l1 ++ l2) = (wfList l1 && wfList l2) := by
  induction l1 with
  | nil => simp [wfList]
  | cons a rest ih => simp [wfList, ih, Bool.and_assoc]

mutual

/-- Evaluation is total on well-formed trees: the only partial step of the
evaluator is the `*varExpr` cast in the assign branch, and well-formedness
guarantees it. -/
theorem eval_wf_total (U : String → List Num → Num) :
    (e : Expr) → wf e = true → ∀ s, (eval U e s).isSome = true
  | .const _, _ => fun _ => rfl
  | .var _, _ => fun _ => rfl
  | .extVar _, _ => fun _ => rfl
  | .unary op a, h => fun s => by
    have iha := eval_wf_total U a (by simpa [wf] using h)
    cases op
    case unaryMinus | unaryLogicalNot | unaryBitwiseNot | unarySqrt =>
      obtain ⟨⟨v, s1⟩, hA⟩ := Option.isSome_iff_exists.mp (iha s)
      simp [eval, hA]
    all_goals simp [eval]
  | .binary op a b, h => fun s => by
    have h' := h
    simp only [wf, Bool.and_eq_true] at h'
    obtain ⟨⟨hv, ha⟩, hb⟩ := h'
    have iha := eval_wf_total U a ha
    have ihb := eval_wf_total U b hb
    cases op
    case multiply | plus | minus | shl | shr | lessThan | lessOrEquals | greaterThan |
        greaterOrEquals | equals | notEquals | bitwiseAnd | bitwiseXor | bitwiseOr =>
      obtain ⟨⟨va, s1⟩, hA⟩ := Option.isSome_iff_exists.mp (iha s)
      obtain ⟨⟨vb, s2⟩, hB⟩ := Option.isSome_iff_exists.mp (ihb s1)
      simp [eval, hA, hB]
    case logicalAnd =>
      obtain ⟨⟨va, s1⟩, hA⟩ := Option.isSome_iff_exists.mp (iha s)
      obtain ⟨⟨vb, s2⟩, hB⟩ := Option.isSome_iff_exists.mp (ihb s1)
      by_cases hz : va = 0 <;> simp [eval, hA, hB, hz]
    case logicalOr =>
      obtain ⟨⟨va, s1⟩, hA⟩ := Option.isSome_iff_exists.mp (iha s)
      obtain ⟨⟨vb, s2⟩, hB⟩ := Option.isSome_iff_exists.mp (ihb s1)
      by_cases hz : va = 0 <;> simp [eval, hA, hB, hz]
    case divide =>
      obtain ⟨⟨vb, s1⟩, hB⟩ := Option.isSome_iff_exists.mp (ihb s)
      obtain ⟨⟨va, s2⟩, hA⟩ := Option.isSome_iff_exists.mp (iha s1)
      by_cases hz : vb = 0 <;> simp [eval, hA, hB, hz]
    case remainder =>
      obtain ⟨⟨vb, s1⟩, hB⟩ := Option.isSome_iff_exists.mp (ihb s)
      obtain ⟨⟨va, s2⟩, hA⟩ := Option.isSome_iff_exists.mp (iha s1)
      by_cases hz : vb = 0 <;> simp [eval, hA, hB, hz]
    case assign =>
      obtain ⟨⟨vb, s1⟩, hB⟩ := Option.isSome_iff_exists.mp (ihb s)
      simp only [if_pos rfl] at hv
      cases a
      case var n => simp [eval, hB]
      all_goals simp [isVarNode] at hv
    all_goals simp [eval]
  | .group args, h => fun s => by
    have ih := evalGroup_wf_total U args (by simpa [wf] using h)
    simpa [eval] using ih 0 s
  | .call f args, h => fun s => by
    have ih := evalArgs_wf_total U args (by simpa [wf] using h)
    obtain ⟨⟨vs, s1⟩, hA⟩ := Option.isSome_iff_exists.mp (ih s)
    simp [eval, hA]

theorem evalGroup_wf_total (U : String → List Num → Num) :
    (l : List Expr) → wfList l = true → ∀ acc s, (evalGroup U l acc s).isSome = true
  | [], _ => fun _ _ => rfl
  | a :: rest, h => fun acc s => by
    have h' := h
    simp only [wfList, Bool.and_eq_true] at h'
    obtain ⟨⟨v, s1⟩, hA⟩ := Option.isSome_iff_exists.mp (eval_wf_total U a h'.1 s)
    have ih := evalGroup_wf_total U rest h'.2 v s1
    simpa [evalGroup, hA] using ih

theorem evalArgs_wf_total (U : String → List Num → Num) :
    (l : List Expr) → wfList l = true → ∀ s, (evalArgs U l s).isSome = true
  | [], _ => fun _ => rfl
  | a :: rest, h => fun s => by
    have h' := h
    simp only [wfList, Bool.and_eq_true] at h'
    obtain ⟨⟨v, s1⟩, hA⟩ := Option.isSome_iff_exists.mp (eval_wf_total U a h'.1 s)
    obtain ⟨⟨vs, s2⟩, hR⟩ := Option.isSome_iff_exists.mp (evalArgs_wf_total U rest h'.2 s1)
    simp [evalArgs, hA, hR]

end

theorem getLast?_cons_ne_nil {α : Type} (a : α) (l : List α) (h : l ≠ []) :
    (a :: l).getLast? = l.getLast? := by
  cases l with
  | nil => exact absurd rfl h
  | cons b r => simp [List.getLast?_cons_cons]

theorem getLast?_some_ne_nil {α : Type} {l : List α} {x : α} (h : l.getLast? = some x) :
    l ≠ [] := by
  intro hc
  rw [hc] at h
  simp at h

theorem scanTok_last (p : Char → Bool) (hp : p ')' = false) :
    ∀ (l : List Char), l.getLast? = some ')' → (scanTok p l).2.getLast? = some ')' := by
  intro l
  induction l with
  | nil => intro h; simp at h
  | cons c rest ih =>
    intro h
    simp only [scanTok]
    split
    · rename_i hc
      cases rest with
      | nil =>
        simp at h
        rw [h] at hc
        rw [hp] at hc
        cases hc
      | cons d r =>
        rw [List.getLast?_cons_cons] at h
        exact ih h
    · exact h

theorem munchOp_last : ∀ (cs : List Char) (tok lastOp : String), cs.getLast? = some ')' →
    ((munchOp tok lastOp cs).2.2).getLast? = some ')' := by
  intro cs
  induction cs with
  | nil => intro tok lastOp h; simp at h
  | cons c rest ih =>
    intro tok lastOp h
    simp only [munchOp]
    split
    · exact h
    · rename_i hstop
      have hrest : rest.getLast? = some ')' := by
        cases rest with
        | nil =>
          simp at h
          rw [h] at hstop
          exact absurd (by decide : isOpStop ')' = true) hstop
        | cons d r => rw [List.getLast?_cons_cons] at h; exact h
      split
      · exact ih _ _ hrest
      · split
        · exact ih _ _ hrest
        · exact h

theorem tokenizeAux_last_rparen : ∀ (fuel : Nat) (ev : Bool) (cs : List Char)
    (ts : List String), cs.length ≤ fuel → cs.getLast? = some ')' →
    tokenizeAux fuel ev cs = .ok ts → ts ≠ [] ∧ ts.getLast? = some ")" := by
  intro fuel
  induction fuel with
  | zero =>
    intro ev cs ts hf hl hok
    cases cs with
    | nil => simp at hl
    | cons c rest => simp at hf
  | succ f ih =>
    intro ev cs ts hf hl hok
    cases cs with
    | nil => simp at hl
    | cons c rest =>
      have hf' : rest.length ≤ f := by simp only [List.length_cons] at hf; omega
      have hrest_or : rest = [] ∨ rest.getLast? = some ')' := by
        cases rest with
        | nil => exact Or.inl rfl
        | cons d r =>
          rw [List.getLast?_cons_cons] at hl
          exact Or.inr hl
      simp only [tokenizeAux] at hok
      split at hok
      · rename_i hsp
        rcases hrest_or with hr | hr
        · subst hr
          simp at hl
          rw [hl] at hsp
          exact absurd hsp (by decide)
        · exact ih _ _ _ hf' hr hok
      · split at hok
        · rename_i hdig
          have hr : rest.getLast? = some ')' := by
            rcases hrest_or with hr | hr
            · subst hr
              simp at hl
              rw [hl] at hdig
              exact absurd hdig (by decide)
            · exact hr
          split at hok
          · cases hok
          · split at hok
            · cases hok
            · rename_i ts' heq
              injection hok with hok
              subst hok
              have hlast := scanTok_last (fun ch => ch == '.' || isDigitCh ch) (by decide)
                rest hr
              have hlen : (scanTok (fun ch => ch == '.' || isDigitCh ch) rest).2.length ≤ f :=
                le_trans (scanTok_length_le _ _) hf'
              have hih := ih _ _ _ hlen hlast heq
              refine ⟨by simp, ?_⟩
              rw [getLast?_cons_ne_nil _ _ hih.1]
              exact hih.2
        · split at hok
          · rename_i hminus
            have hr : rest.getLast? = some ')' := by
              rcases hrest_or with hr | hr
              · subst hr
                simp at hl
                rw [hl] at hminus
                exact absurd hminus (by decide)
              · exact hr
            split at hok
            · cases hok
            · rename_i ts' heq
              injection hok with hok
              subst hok
              have hih := ih _ _ _ hf' hr heq
              refine ⟨by simp, ?_⟩
              rw [getLast?_cons_ne_nil _ _ hih.1]
              exact hih.2
          · split at hok
            · rename_i hlet
              have hr : rest.getLast? = some ')' := by
                rcases hrest_or with hr | hr
                · subst hr
                  simp at hl
                  rw [hl] at hlet
                  exact absurd hlet (by decide)
                · exact hr
              split at hok
              · cases hok
              · split at hok
                · cases hok
                · rename_i ts' heq
                  injection hok with hok
                  subst hok
                  have hlast := scanTok_last
                    (fun ch => isLetterCh ch || isDigitCh ch || ch == '_') (by decide) rest hr
                  have hlen : (scanTok
                      (fun ch => isLetterCh ch || isDigitCh ch || ch == '_') rest).2.length ≤
                      f := le_trans (scanTok_length_le _ _) hf'
                  have hih := ih _ _ _ hlen hlast heq
                  refine ⟨by simp, ?_⟩
                  rw [getLast?_cons_ne_nil _ _ hih.1]
                  exact hih.2
            · split at hok
              · split at hok
                · cases hok
                · rename_i ts' heq
                  injection hok with hok
                  subst hok
                  rcases hrest_or with hr | hr
                  · subst hr
                    simp at hl
                    subst hl
                    have hnil : tokenizeAux f (')' == '(' || ')' == ',') ([] : List Char) =
                        .ok ([] : List String) := by cases f <;> rfl
                    rw [hnil] at heq
                    injection heq with heq
                    subst heq
                    exact ⟨by simp, rfl⟩
                  · have hih := ih _ _ _ hf' hr heq
                    refine ⟨by simp, ?_⟩
                    rw [getLast?_cons_ne_nil _ _ hih.1]
                    exact hih.2
              · split at hok
                · cases hok
                · rename_i hop
                  split at hok
                  · cases hok
                  · rename_i ts' heq
                    injection hok with hok
                    subst hok
                    have hlast := munchOp_last (c :: rest) "" "" hl
                    have hlen : ((munchOp "" "" (c :: rest)).2.2).length ≤ f := by
                      have := munchOp_progress (c :: rest) "" _ rfl hop
                      simp only [List.length_cons] at this
                      omega
                    have hih := ih _ _ _ hlen hlast heq
                    refine ⟨by simp, ?_⟩
                    rw [getLast?_cons_ne_nil _ _ hih.1]
                    exact hih.2

theorem parseArgs_wf : ∀ (es : List (Option Expr)), esWF es = true →
    wfList (parseArgs es).1 = true ∧ esWF (parseArgs es).2 = true := by
  intro es
  induction es with
  | nil => intro h; exact ⟨rfl, rfl⟩
  | cons x rest ih =>
    intro h
    cases x with
    | none => exact ⟨rfl, by simpa [esWF] using h⟩
    | some e =>
      simp only [esWF, Bool.and_eq_true] at h
      have ihr := ih h.2
      constructor
      · simp only [parseArgs, wfList_append]
        simp [wfList, ihr.1, h.1]
      · simpa [parseArgs] using ihr.2

theorem newBinaryExpr_wf (op : arithOp) (a b ex : Expr)
    (hok : newBinaryExpr op a b = .ok ex) (ha : wf a = true) (hb : wf b = true) :
    wf ex = true := by
  unfold newBinaryExpr at hok
  split at hok
  · rename_i hass
    split at hok
    · rename_i n
      injection hok with hok
      subst hok
      subst hass
      simp [wf, isVarNode, ha, hb]
    · cases hok
  · rename_i hass
    injection hok with hok
    subst hok
    simp [wf, ha, hb, hass]

theorem bind_wf (name : String) (funcs : FuncMap) (es : List (Option Expr))
    (ex : Expr) (es' : List (Option Expr)) (hok : bind name funcs es = .ok (ex, es'))
    (h : esWF es = true) : wf ex = true ∧ esWF es' = true := by
  unfold bind at hok
  dsimp only at hok
  split at hok
  · have hp := parseArgs_wf es h
    injection hok with hok
    injection hok with h1 h2
    subst h1
    subst h2
    exact ⟨by simpa [wf] using hp.1, hp.2⟩
  · split at hok
    · split at hok
      · split at hok
        · rename_i a rest
          injection hok with hok
          injection hok with h1 h2
          subst h1
          subst h2
          simp only [esWF, Bool.and_eq_true] at h
          exact ⟨by simpa [wf] using h.1, h.2⟩
        · cases hok
      · cases es with
        | nil => simp [popE] at hok
        | cons x tl =>
          cases tl with
          | nil =>
            cases x <;> simp [popE] at hok
          | cons y rest =>
            simp only [popE] at hok
            cases x with
            | none => simp at hok
            | some b0 =>
              cases y with
              | none => simp at hok
              | some a0 =>
                simp only [esWF, Bool.and_eq_true] at h
                split at hok
                · rename_i a1 b1 hsa hsb
                  injection hsa with hsa
                  injection hsb with hsb
                  subst hsa
                  subst hsb
                  split at hok
                  · simp at hok
                  · rename_i ex0 hnb
                    injection hok.symm with hok
                    injection hok with h1 h2
                    subst h1
                    subst h2
                    exact ⟨newBinaryExpr_wf _ _ _ _ hnb h.2.1 h.1, h.2.2⟩
                · rename_i hnb
                  exact (hnb a0 b0 rfl rfl).elim
    · cases hok

theorem foldUntilParen_wf (funcs : FuncMap) : ∀ (os : List String)
    (es : List (Option Expr)) (os' : List String) (es' : List (Option Expr)),
    foldUntilParen funcs os es = .ok (os', es') → esWF es = true →
    esWF es' = true ∧ ∃ rest, os' = "(" :: rest := by
  intro os
  induction os with
  | nil => intro es os' es' hok h; simp [foldUntilParen] at hok
  | cons o rest ih =>
    intro es os' es' hok h
    simp only [foldUntilParen] at hok
    split at hok
    · rename_i hpar
      injection hok with hok
      injection hok with h1 h2
      subst h1
      subst h2
      subst hpar
      exact ⟨h, rest, rfl⟩
    · split at hok
      · cases hok
      · rename_i ex0 es0 heq
        have hb := bind_wf _ _ _ _ _ heq h
        exact ih _ _ _ hok (by simp [esWF, hb.1, hb.2])

theorem shuntFold_wf (op : arithOp) (funcs : FuncMap) : ∀ (os : List String)
    (es : List (Option Expr)) (os' : List String) (es' : List (Option Expr)),
    shuntFold op funcs os es = .ok (os', es') → esWF es = true → esWF es' = true := by
  intro os
  induction os with
  | nil =>
    intro es os' es' hok h
    simp only [shuntFold] at hok
    injection hok with hok
    injection hok with h1 h2
    subst h2
    exact h
  | cons o rest ih =>
    intro es os' es' hok h
    simp only [shuntFold] at hok
    split at hok
    · injection hok with hok
      injection hok with h1 h2
      subst h2
      exact h
    · split at hok
      · split at hok
        · cases hok
        · rename_i ex0 es0 heq
          have hb := bind_wf _ _ _ _ _ heq h
          exact ih _ _ _ hok (by simp [esWF, hb.1, hb.2])
      · injection hok with hok
        injection hok with h1 h2
        subst h2
        exact h

theorem parseTok_wf (funcs : FuncMap) (st : PState) (t : String) (st' : PState)
    (hok : parseTok funcs st t = .ok st') (h : esWF st.es = true) :
    esWF st'.es = true := by
  unfold parseTok at hok
  dsimp only at hok
  split at hok
  · injection hok with hok
    subst hok
    simpa [esWF] using h
  · split at hok
    · cases hok
    · split at hok
      · split at hok
        · cases hok
        · rename_i os1 es1 heq
          have hf := foldUntilParen_wf _ _ _ _ _ heq h
          split at hok
          · split at hok
            · cases hok
            · rename_i ex0 es0 heqb
              have hb := bind_wf _ _ _ _ _ heqb hf.1
              injection hok with hok
              subst hok
              simp [esWF, hb.1, hb.2]
          · injection hok with hok
            subst hok
            have hp := parseArgs_wf es1 hf.1
            simp only [esWF, Bool.and_eq_true]
            exact ⟨by simpa [wf] using hp.1, hp.2⟩
      · split at hok
        · injection hok with hok
          subst hok
          simpa [esWF, wf] using h
        · split at hok
          · injection hok with hok
            subst hok
            exact h
          · split at hok
            · split at hok
              · cases hok
              · rename_i os1 es1 heq
                injection hok with hok
                subst hok
                exact (foldUntilParen_wf _ _ _ _ _ heq h).1
            · split at hok
              · split at hok
                · cases hok
                · rename_i os1 es1 heq
                  injection hok with hok
                  subst hok
                  exact shuntFold_wf _ _ _ _ _ _ heq h
              · split at hok
                · injection hok with hok
                  subst hok
                  simpa [esWF, wf] using h
                · injection hok with hok
                  subst hok
                  simpa [esWF, wf] using h
                · injection hok with hok
                  subst hok
                  simpa [esWF, wf] using h

theorem parseTok_rparen (funcs : FuncMap) (st : PState) (st' : PState)
    (hok : parseTok funcs st ")" = .ok st') : ∃ ex tl, st'.es = some ex :: tl := by
  unfold parseTok at hok
  dsimp only at hok
  rw [if_neg (by decide : ¬(")" : String) = "(")] at hok
  split at hok
  · cases hok
  · rw [if_pos rfl] at hok
    split at hok
    · cases hok
    · rename_i os1 es1 heq
      split at hok
      · split at hok
        · cases hok
        · rename_i ex0 es0 heqb
          injection hok with hok
          subst hok
          exact ⟨ex0, es0, rfl⟩
      · injection hok with hok
        subst hok
        exact ⟨_, _, rfl⟩

theorem parseToks_wf (funcs : FuncMap) : ∀ (ts : List String) (st st' : PState),
    parseToks funcs ts st = .ok st' → esWF st.es = true → esWF st'.es = true := by
  intro ts
  induction ts with
  | nil =>
    intro st st' hok h
    simp only [parseToks] at hok
    injection hok with hok
    subst hok
    exact h
  | cons t rest ih =>
    intro st st' hok h
    simp only [parseToks] at hok
    split at hok
    · cases hok
    · rename_i st1 heq
      exact ih _ _ hok (parseTok_wf _ _ _ _ heq h)

theorem parseToks_last_rparen (funcs : FuncMap) : ∀ (ts : List String) (st st' : PState),
    ts.getLast? = some ")" → parseToks funcs ts st = .ok st' →
    ∃ ex tl, st'.es = some ex :: tl := by
  intro ts
  induction ts with
  | nil => intro st st' hl hok; simp at hl
  | cons t rest ih =>
    intro st st' hl hok
    simp only [parseToks] at hok
    split at hok
    · cases hok
    · rename_i st1 heq
      cases rest with
      | nil =>
        simp at hl
        subst hl
        simp only [parseToks] at hok
        injection hok with hok
        subst hok
        exact parseTok_rparen _ _ _ heq
      | cons t2 rest2 =>
        rw [List.getLast?_cons_cons] at hl
        exact ih _ _ hl hok

theorem drain_wf_head (funcs : FuncMap) : ∀ (os : List String)
    (es es' : List (Option Expr)), drain funcs os es = .ok es' → esWF es = true →
    esWF es' = true ∧
      ((∃ ex tl, es = some ex :: tl) → ∃ ex tl, es' = some ex :: tl) := by
  intro os
  induction os with
  | nil =>
    intro es es' hok h
    simp only [drain] at hok
    injection hok with hok
    subst hok
    exact ⟨h, fun hx => hx⟩
  | cons o rest ih =>
    intro es es' hok h
    simp only [drain] at hok
    split at hok
    · cases hok
    · split at hok
      · cases hok
      · rename_i ex0 es0 heq
        have hb := bind_wf _ _ _ _ _ heq h
        have := ih _ _ hok (by simp [esWF, hb.1, hb.2])
        exact ⟨this.1, fun _ => this.2 ⟨ex0, es0, rfl⟩⟩

/-- Claim C5: evaluation never fails.  For every expression tree returned by
a successful `Parse` (with caller-supplied function implementations assumed
total, as modelled by the total interpretation `U`), the returned tree is an
actual tree (never Go's nil interface value), it is well-formed — every
assign node's left child is a plain variable node, the invariant enforced by
`newBinaryExpr` at construction time — and every invocation of `Eval`
terminates normally with a numeric value. -/
theorem c5_eval_never_fails (input : String) (vars : VarMap) (funcs : FuncMap)
    (res : Option Expr) (vars' : VarMap)
    (h : Parse input vars funcs = .ok (res, vars')) :
    ∃ e, res = some e ∧ wf e = true ∧
      ∀ (U : String → List Num → Num) (s : Store), (eval U e s).isSome = true := by
  unfold Parse at h
  split at h
  · cases h
  · rename_i toks heqtok
    split at h
    · cases h
    · rename_i st heqp
      split at h
      · cases h
      · rename_i es heqd
        have hcs : (("(" ++ input ++ ")").data).getLast? = some ')' := by
          have : ("(" ++ input ++ ")").data = ("(" ++ input).data ++ [')'] := rfl
          rw [this, List.getLast?_concat]
        have htoks := tokenizeAux_last_rparen _ _ _ _ (le_refl _) hcs heqtok
        have hhead := parseToks_last_rparen funcs _ _ _ htoks.2 heqp
        have hwfst := parseToks_wf funcs _ _ _ heqp rfl
        have hd := drain_wf_head funcs _ _ _ heqd hwfst
        obtain ⟨ex, tl, hes⟩ := hd.2 hhead
        subst hes
        injection h with h
        injection h with h1 h2
        subst h1
        have hwf : wf ex = true := by
          have := hd.1
          simp only [esWF, Bool.and_eq_true] at this
          exact this.1
        exact ⟨ex, rfl, hwf, fun U s => eval_wf_total U ex hwf s⟩

/-- Witness for C5 on the parse of `"1+2"`. -/
theorem c5_witness :
    ∃ e, (Parse "1+2" [] []).toOption.map Prod.fst = some (some e) ∧ wf e = true ∧
      ∀ (U : String → List Num → Num) (s : Store), (eval U e s).isSome = true := by
  obtain ⟨e, he, hwf, htot⟩ := c5_eval_never_fails "1+2" [] []
    (some (.group [.binary .plus (.const 1) (.const 2)])) [] rfl
  exact ⟨e, by rw [show (Parse "1+2" [] []).toOption.map Prod.fst =
    some (some (Expr.group [.binary .plus (.const 1) (.const 2)])) from rfl, he], hwf, htot⟩

end exprgo
